import Mathlib

/-!
Verification of the SnapNet shortest-path visualizer core (src/App.tsx).

The source is a single React component. Its core logic is pure:

* the cell/grid data model (`CellType`, `Cell`, lines 4-16);
* the two traversal functions `bfs` and `dfs` (lines 79-155), which close
  over the component state `rows`, `cols` and `grid`;
* the click state machine `handleCellClick` (lines 48-77);
* the overlay-clearing operations `clearPath` / `clearWalls` (lines 205-225);
* the guard of `visualizePath` (lines 157-161).

Modelling notes.

The source grid is a `rows × cols` matrix of cell records whose `row`/`col`
fields always equal their indices (`initializeGrid`, lines 29-42, establishes
this and every later mutation touches only the `type` field).  A grid state is
therefore faithfully represented by its type assignment `Int → Int → CellType`;
all coordinate arithmetic in the source is done on JavaScript numbers that can
go negative before the bounds check, hence `Int` coordinates.  In-place cell
mutation (`newGrid[r][c].type = t`) becomes a pointwise functional update
`setType`; the traversals only read coordinates that pass the explicit bounds
check `0 ≤ r < rows ∧ 0 ≤ c < cols`, so out-of-range values of the function
are never consulted.

The `visited` set of strings `"r,c"` is modelled as a list of coordinate
pairs with the same membership test; the queue/stack of `{cell, path}`
records as a list of pairs.  The `while` loops are modelled with a fuel
parameter `rows * cols + 1`; the development proves this fuel is never
exhausted (each loop iteration removes one frontier entry, and entries are
only ever created together with a fresh member of the visited set, whose
in-bounds part has at most `rows * cols` elements).
-/

set_option maxHeartbeats 1000000

namespace SPV

/-- The six cell type tags of App.tsx line 4. -/
inductive CellType
  | empty
  | start
  | «end»
  | wall
  | path
  | visited
deriving DecidableEq

/-- A cell record (App.tsx lines 6-10): a coordinate pair plus a type tag. -/
structure Cell where
  row : Int
  col : Int
  type : CellType
deriving DecidableEq

/-- The result record of one traversal run (App.tsx lines 12-16). -/
structure PathResult where
  path : List Cell
  visited : List Cell
  found : Bool
deriving DecidableEq

/-- A grid state, represented by its type assignment (see the header note). -/
abbrev GridT := Int → Int → CellType

/-- A coordinate pair `(row, col)`. -/
abbrev Coord := Int × Int

/-- The coordinate of a cell record. -/
def coordOf (c : Cell) : Coord := (c.row, c.col)

/-- The fixed neighbour enumeration order of App.tsx lines 85-87 and 124-126:
east, south, west, north. -/
def directions : List (Int × Int) := [(0, 1), (1, 0), (0, -1), (-1, 0)]

/-- The bounds test inlined at App.tsx lines 101-103 and 140-142. -/
def inBounds (rows cols : Nat) (r c : Int) : Bool :=
  decide (0 ≤ r) && decide (r < (rows : Int)) && decide (0 ≤ c) && decide (c < (cols : Int))

theorem inBounds_iff {rows cols : Nat} {r c : Int} :
    inBounds rows cols r c = true ↔ 0 ≤ r ∧ r < (rows : Int) ∧ 0 ≤ c ∧ c < (cols : Int) := by
  simp [inBounds, and_assoc]

/-- The body of the `for (const [dr, dc] of directions)` loop shared verbatim
by `bfs` (App.tsx lines 96-112) and `dfs` (lines 135-151), recursing over the
remaining direction list.  Returns the entries pushed onto the frontier, the
updated visited set, and the updated discovery-order cell list. -/
def expandNeighbors (rows cols : Nat) (grid : GridT) (cell : Cell) (path : List Cell) :
    List (Int × Int) → List Coord → List Cell →
      List (Cell × List Cell) × List Coord × List Cell
  | [], vset, vcells => ([], vset, vcells)
  | d :: ds, vset, vcells =>
    let newRow := cell.row + d.1
    let newCol := cell.col + d.2
    if inBounds rows cols newRow newCol = true ∧ (newRow, newCol) ∉ vset ∧
        grid newRow newCol ≠ CellType.wall then
      let newCell : Cell := ⟨newRow, newCol, grid newRow newCol⟩
      let r := expandNeighbors rows cols grid cell path ds
        ((newRow, newCol) :: vset) (vcells ++ [newCell])
      ((newCell, path ++ [newCell]) :: r.1, r.2.1, r.2.2)
    else
      expandNeighbors rows cols grid cell path ds vset vcells

/-- The `while (queue.length > 0)` loop of `bfs` (App.tsx lines 89-113):
dequeue from the front, short-circuit on the end coordinate, otherwise expand
the four neighbours and append the new entries at the back. -/
def bfsLoop (rows cols : Nat) (grid : GridT) (endCell : Cell) :
    Nat → List (Cell × List Cell) → List Coord → List Cell → PathResult
  | _, [], _, vcells => ⟨[], vcells, false⟩
  | 0, _ :: _, _, vcells => ⟨[], vcells, false⟩
  | fuel + 1, (cell, path) :: rest, vset, vcells =>
    if cell.row = endCell.row ∧ cell.col = endCell.col then
      ⟨path, vcells, true⟩
    else
      let r := expandNeighbors rows cols grid cell path directions vset vcells
      bfsLoop rows cols grid endCell fuel (rest ++ r.1) r.2.1 r.2.2

/-- The function `bfs` (App.tsx lines 79-116): seed the queue with `(start, [start])` and
the visited set with the start coordinate, then run the loop. -/
def bfs (rows cols : Nat) (grid : GridT) (startCell endCell : Cell) : PathResult :=
  bfsLoop rows cols grid endCell (rows * cols + 1)
    [(startCell, [startCell])] [(startCell.row, startCell.col)] []

/-- The `while (stack.length > 0)` loop of `dfs` (App.tsx lines 128-152):
pop from the back (`stack.pop()`), otherwise identical to the bfs loop. -/
def dfsLoop (rows cols : Nat) (grid : GridT) (endCell : Cell) :
    Nat → List (Cell × List Cell) → List Coord → List Cell → PathResult
  | _, [], _, vcells => ⟨[], vcells, false⟩
  | 0, _ :: _, _, vcells => ⟨[], vcells, false⟩
  | fuel + 1, f :: fs, vset, vcells =>
    let e := (f :: fs).getLast (List.cons_ne_nil f fs)
    let rest := (f :: fs).dropLast
    if e.1.row = endCell.row ∧ e.1.col = endCell.col then
      ⟨e.2, vcells, true⟩
    else
      let r := expandNeighbors rows cols grid e.1 e.2 directions vset vcells
      dfsLoop rows cols grid endCell fuel (rest ++ r.1) r.2.1 r.2.2

/-- The function `dfs` (App.tsx lines 118-155). -/
def dfs (rows cols : Nat) (grid : GridT) (startCell endCell : Cell) : PathResult :=
  dfsLoop rows cols grid endCell (rows * cols + 1)
    [(startCell, [startCell])] [(startCell.row, startCell.col)] []

/-! ## The editing operations -/

/-- The three edit modes of App.tsx line 24. -/
inductive Mode
  | start
  | «end»
  | wall
deriving DecidableEq

/-- Pointwise functional update, modelling the in-place cell type mutation
`grid[r][c].type = t`. -/
def setType (grid : GridT) (r c : Int) (t : CellType) : GridT :=
  fun r' c' => if r' = r ∧ c' = c then t else grid r' c'

/-- The component state consulted and produced by `handleCellClick`. -/
structure ClickState where
  grid : GridT
  start : Option Coord
  «end» : Option Coord
  mode : Mode
  isRunning : Bool
  message : String

/-- The click handler `handleCellClick` (App.tsx lines 48-77).  Note the order of operations in
the `start` branch: the previous start cell is mutated to `empty` *before* the
`cell.type === end` early return, and — the cells being shared objects — that
mutation survives the early return; the type test reads the cell after the
mutation.  The `end` branch is symmetric; the `wall` branch toggles. -/
def handleCellClick (s : ClickState) (row col : Int) : ClickState :=
  if s.isRunning = true then s
  else
    match s.mode with
    | Mode.start =>
      let g1 := match s.start with
        | some p => setType s.grid p.1 p.2 CellType.empty
        | none => s.grid
      if g1 row col = CellType.«end» then { s with grid := g1 }
      else
        { s with grid := setType g1 row col CellType.start,
                 start := some (row, col), mode := Mode.«end», message := "" }
    | Mode.«end» =>
      let g1 := match s.«end» with
        | some p => setType s.grid p.1 p.2 CellType.empty
        | none => s.grid
      if g1 row col = CellType.start then { s with grid := g1 }
      else
        { s with grid := setType g1 row col CellType.«end»,
                 «end» := some (row, col), mode := Mode.wall, message := "" }
    | Mode.wall =>
      if s.grid row col = CellType.start ∨ s.grid row col = CellType.«end» then s
      else
        { s with grid := setType s.grid row col
                   (if s.grid row col = CellType.wall then CellType.empty else CellType.wall),
                 message := "" }

/-- The per-cell rule of `clearPath` (App.tsx lines 207-210). -/
def clearPathCellType : CellType → CellType
  | CellType.path => CellType.empty
  | CellType.visited => CellType.empty
  | t => t

/-- The operation `clearPath` (App.tsx lines 205-214): reset every `path`/`visited` cell to
`empty`. -/
def clearPath (grid : GridT) : GridT :=
  fun r c => clearPathCellType (grid r c)

/-- The per-cell rule of `clearWalls` (App.tsx lines 218-221). -/
def clearWallsCellType : CellType → CellType
  | CellType.wall => CellType.empty
  | t => t

/-- The operation `clearWalls` (App.tsx lines 216-225): reset every `wall` cell to `empty`. -/
def clearWalls (grid : GridT) : GridT :=
  fun r c => clearWallsCellType (grid r c)

/-- The algorithm selector of App.tsx line 26. -/
inductive Algo
  | bfs
  | dfs
deriving DecidableEq

/-- The synchronous outcome of one `visualizePath` invocation: the grid after
the synchronous overlay clearing, the final user message, and the traversal
result (`none` when no traversal was attempted). -/
structure RunOutcome where
  grid : GridT
  message : String
  result : Option PathResult

/-- The run trigger `visualizePath` (App.tsx lines 157-203), restricted to its synchronous
data flow.  If either endpoint reference is unset the guard at lines 158-161
surfaces an error message and returns without touching the grid or running a
traversal.  Otherwise the overlay is cleared (lines 167-173; the same per-cell
map as `clearPath`), and the selected algorithm runs on the closure variable
`grid` — the *pre-clearing* grid — with the start/end state cells, which alias
grid cells and hence carry the current grid type at their coordinates.  The
timed animation repaints (lines 178-196) are presentation effects and are not
modelled; the final message (lines 197-199) is. -/
def visualizePath (rows cols : Nat) (algorithm : Algo) (grid : GridT)
    (start «end» : Option Coord) : RunOutcome :=
  match start, «end» with
  | some sp, some ep =>
    let sCell : Cell := ⟨sp.1, sp.2, grid sp.1 sp.2⟩
    let eCell : Cell := ⟨ep.1, ep.2, grid ep.1 ep.2⟩
    let res := match algorithm with
      | Algo.bfs => bfs rows cols grid sCell eCell
      | Algo.dfs => dfs rows cols grid sCell eCell
    let n := res.path.length - 1
    { grid := clearPath grid,
      message := if res.found then s!"Path found! Length: {n} steps"
                 else "No path found! The end point is unreachable.",
      result := some res }
  | _, _ =>
    { grid := grid, message := "Please select both start and end points!", result := none }

/-! ## Paths on the grid

Spec-side notions used to state the claims: Manhattan adjacency, wall-free
paths, and the directed step relation actually searched by the traversals
(which checks bounds and walls on the *target* cell only — the seed cell is
never checked). -/

/-- Manhattan distance between two coordinates. -/
def manhattan (a b : Coord) : Nat := (a.1 - b.1).natAbs + (a.2 - b.2).natAbs

/-- A coordinate the traversals may enter: in bounds and not a wall. -/
def good (rows cols : Nat) (grid : GridT) (c : Coord) : Prop :=
  inBounds rows cols c.1 c.2 = true ∧ grid c.1 c.2 ≠ CellType.wall

/-- One admissible move of the traversals: orthogonal adjacency, with the
bounds/wall test applied to the target cell. -/
def stepOk (rows cols : Nat) (grid : GridT) (a b : Coord) : Prop :=
  manhattan a b = 1 ∧ good rows cols grid b

/-- A path in the directed graph the traversals actually search: nonempty,
from `s` to `e`, every move admissible.  The first cell is exempt from the
bounds/wall test, exactly as in the source. -/
def AlgoPath (rows cols : Nat) (grid : GridT) (q : List Coord) (s e : Coord) : Prop :=
  q.head? = some s ∧ q.getLast? = some e ∧ List.Chain' (stepOk rows cols grid) q

/-- A wall-free orthogonal path in the sense of the specification: nonempty,
from `s` to `e`, consecutive cells at Manhattan distance exactly 1, and every
cell of the path in bounds and not a wall. -/
def isWallFreePath (rows cols : Nat) (grid : GridT) (q : List Coord) (s e : Coord) : Prop :=
  q.head? = some s ∧ q.getLast? = some e ∧
    List.Chain' (fun a b : Coord => manhattan a b = 1) q ∧
    ∀ c ∈ q, good rows cols grid c

instance goodDecidable (rows cols : Nat) (grid : GridT) (c : Coord) :
    Decidable (good rows cols grid c) :=
  inferInstanceAs (Decidable (inBounds rows cols c.1 c.2 = true ∧
    grid c.1 c.2 ≠ CellType.wall))

instance manhattanOneDecidable : DecidableRel (fun a b : Coord => manhattan a b = 1) :=
  fun a b => inferInstanceAs (Decidable (manhattan a b = 1))

instance isWallFreePathDecidable (rows cols : Nat) (grid : GridT) (q : List Coord)
    (s e : Coord) : Decidable (isWallFreePath rows cols grid q s e) :=
  inferInstanceAs (Decidable (q.head? = some s ∧ q.getLast? = some e ∧
    List.Chain' (fun a b : Coord => manhattan a b = 1) q ∧
    ∀ c ∈ q, good rows cols grid c))

theorem manhattan_of_dir {d : Int × Int} (hd : d ∈ directions) (a : Coord) :
    manhattan a (a.1 + d.1, a.2 + d.2) = 1 := by
  fin_cases hd <;> · simp only [manhattan]; omega

theorem dir_of_manhattan {a b : Coord} (h : manhattan a b = 1) :
    ∃ d ∈ directions, b = (a.1 + d.1, a.2 + d.2) := by
  obtain ⟨a1, a2⟩ := a
  obtain ⟨b1, b2⟩ := b
  simp only [manhattan] at h
  have h4 : (b1 = a1 ∧ b2 = a2 + 1) ∨ (b1 = a1 + 1 ∧ b2 = a2) ∨
      (b1 = a1 ∧ b2 = a2 - 1) ∨ (b1 = a1 - 1 ∧ b2 = a2) := by omega
  obtain ⟨h1, h2⟩ | ⟨h1, h2⟩ | ⟨h1, h2⟩ | ⟨h1, h2⟩ := h4
  · exact ⟨(0, 1), by simp [directions], by simp only [Prod.mk.injEq]; omega⟩
  · exact ⟨(1, 0), by simp [directions], by simp only [Prod.mk.injEq]; omega⟩
  · exact ⟨(0, -1), by simp [directions], by simp only [Prod.mk.injEq]; omega⟩
  · exact ⟨(-1, 0), by simp [directions], by simp only [Prod.mk.injEq]; omega⟩

theorem chain'_stepOk_of_good {rows cols : Nat} {grid : GridT} :
    ∀ {q : List Coord}, List.Chain' (fun a b : Coord => manhattan a b = 1) q →
      (∀ c ∈ q, good rows cols grid c) → List.Chain' (stepOk rows cols grid) q
  | [], _, _ => List.chain'_nil
  | [_], _, _ => List.chain'_singleton _
  | a :: b :: l, hc, hg => by
    rw [List.chain'_cons] at hc ⊢
    exact ⟨⟨hc.1, hg b (by simp)⟩,
      chain'_stepOk_of_good hc.2 (fun c hcm => hg c (by simp [hcm]))⟩

theorem good_of_chain'_tail {rows cols : Nat} {grid : GridT} :
    ∀ {q : List Coord}, List.Chain' (stepOk rows cols grid) q →
      ∀ c ∈ q.tail, good rows cols grid c
  | [], _, _, hm => by simp at hm
  | [_], _, _, hm => by simp at hm
  | a :: b :: l, hc, c, hm => by
    rw [List.chain'_cons] at hc
    rcases List.mem_cons.mp hm with h | h
    · exact h ▸ hc.1.2
    · exact good_of_chain'_tail hc.2 c h

theorem head_cons_of_head? {α : Type} {q : List α} {s : α} (h : q.head? = some s) :
    ∃ t, q = s :: t := by
  cases q with
  | nil => simp at h
  | cons a t =>
    have ha : a = s := by simpa using h
    exact ⟨t, by rw [ha]⟩

theorem algoPath_all_good {rows cols : Nat} {grid : GridT} {q : List Coord} {s e : Coord}
    (h : AlgoPath rows cols grid q s e) (hs : good rows cols grid s) :
    ∀ c ∈ q, good rows cols grid c := by
  obtain ⟨h1, _, h3⟩ := h
  obtain ⟨t, rfl⟩ := head_cons_of_head? h1
  intro c hc
  rcases List.mem_cons.mp hc with rfl | hc
  · exact hs
  · exact good_of_chain'_tail h3 c hc

theorem wallFree_algoPath {rows cols : Nat} {grid : GridT} {q : List Coord} {s e : Coord}
    (h : isWallFreePath rows cols grid q s e) : AlgoPath rows cols grid q s e :=
  ⟨h.1, h.2.1, chain'_stepOk_of_good h.2.2.1 h.2.2.2⟩

theorem algoPath_wallFree {rows cols : Nat} {grid : GridT} {q : List Coord} {s e : Coord}
    (h : AlgoPath rows cols grid q s e) (hs : good rows cols grid s) :
    isWallFreePath rows cols grid q s e :=
  ⟨h.1, h.2.1, List.Chain'.imp (fun _ _ hab => hab.1) h.2.2, algoPath_all_good h hs⟩

theorem algoPath_length_pos {rows cols : Nat} {grid : GridT} {q : List Coord} {s e : Coord}
    (h : AlgoPath rows cols grid q s e) : 1 ≤ q.length := by
  obtain ⟨t, rfl⟩ := head_cons_of_head? h.1
  simp

theorem algoPath_single {rows cols : Nat} {grid : GridT} {q : List Coord} {s e : Coord}
    (h : AlgoPath rows cols grid q s e) (hlen : q.length = 1) : s = e := by
  obtain ⟨h1, h2, _⟩ := h
  obtain ⟨t, rfl⟩ := head_cons_of_head? h1
  have ht : t = [] := by simpa using hlen
  subst ht
  simpa using h2

/-- Remove the last step of an algorithm path of length at least 2. -/
theorem algoPath_decomp {rows cols : Nat} {grid : GridT} {q : List Coord} {s c : Coord}
    (h : AlgoPath rows cols grid q s c) (hlen : 2 ≤ q.length) :
    ∃ q' c', AlgoPath rows cols grid q' s c' ∧ stepOk rows cols grid c' c ∧
      q = q' ++ [c] ∧ q.length = q'.length + 1 := by
  obtain ⟨h1, h2, h3⟩ := h
  rcases List.eq_nil_or_concat q with rfl | ⟨L, b, hq⟩
  · simp at h1
  subst hq
  simp only [List.concat_eq_append] at h1 h2 h3 hlen ⊢
  have hb : b = c := by
    rw [List.getLast?_concat] at h2
    exact Option.some.inj h2
  cases L with
  | nil => simp at hlen
  | cons x L' =>
    rw [List.chain'_append] at h3
    have hne := List.cons_ne_nil x L'
    have hlast : (x :: L').getLast? = some ((x :: L').getLast hne) :=
      List.getLast?_eq_getLast _ _
    refine ⟨x :: L', (x :: L').getLast hne, ⟨by simpa using h1, hlast, h3.1⟩, ?_, ?_, by simp⟩
    · have hstep := h3.2.2 ((x :: L').getLast hne) (by simp [Option.mem_def, hlast]) b (by simp)
      exact hb ▸ hstep
    · rw [hb]

/-- Every coordinate on a chain whose head lies in a step-closed set lies in
the set. -/
theorem chain_mem_closed {rows cols : Nat} {grid : GridT} {vset : List Coord}
    (hcl : ∀ c ∈ vset, ∀ b, stepOk rows cols grid c b → b ∈ vset) :
    ∀ {q : List Coord}, List.Chain' (stepOk rows cols grid) q →
      ∀ {h : Coord}, q.head? = some h → h ∈ vset → ∀ x ∈ q, x ∈ vset
  | [], _, _, _, _, _, hm => by simp at hm
  | [a], _, h, hh, hmem, x, hm => by
    simp at hh hm
    subst hh; subst hm; exact hmem
  | a :: b :: l, hc, h, hh, hmem, x, hm => by
    rw [List.chain'_cons] at hc
    have ha : a = h := by simpa using hh
    subst ha
    have hb : b ∈ vset := hcl a hmem b hc.1
    rcases List.mem_cons.mp hm with rfl | hm
    · exact hmem
    · exact chain_mem_closed hcl hc.2 rfl hb x hm

theorem reachable_mem_closed {rows cols : Nat} {grid : GridT} {vset : List Coord}
    (hcl : ∀ c ∈ vset, ∀ b, stepOk rows cols grid c b → b ∈ vset)
    {q : List Coord} {s e : Coord} (h : AlgoPath rows cols grid q s e)
    (hs : s ∈ vset) : e ∈ vset := by
  obtain ⟨h1, h2, h3⟩ := h
  have hne : q ≠ [] := by
    obtain ⟨t, rfl⟩ := head_cons_of_head? h1
    simp
  have he : q.getLast hne = e := by
    rw [List.getLast?_eq_getLast _ hne] at h2
    exact Option.some.inj h2
  exact he ▸ chain_mem_closed hcl h3 h1 hs _ (List.getLast_mem hne)

/-! ## Cell-level path validity -/

/-- One admissible move at the cell level: the target additionally records the
grid type at its own coordinate, as the traversals construct it. -/
def cellStep (rows cols : Nat) (grid : GridT) (a b : Cell) : Prop :=
  manhattan (coordOf a) (coordOf b) = 1 ∧ good rows cols grid (coordOf b) ∧
    b.type = grid b.row b.col

/-- Validity of one frontier entry `(cell, path)`: the carried path runs from
the start cell to the cell of the entry through admissible moves. -/
def EntryOk (rows cols : Nat) (grid : GridT) (startCell : Cell) (e : Cell × List Cell) : Prop :=
  e.2.head? = some startCell ∧ e.2.getLast? = some e.1 ∧
    List.Chain' (cellStep rows cols grid) e.2

theorem entryOk_algoPath {rows cols : Nat} {grid : GridT} {sC : Cell} {e : Cell × List Cell}
    (h : EntryOk rows cols grid sC e) :
    AlgoPath rows cols grid (e.2.map coordOf) (coordOf sC) (coordOf e.1) := by
  obtain ⟨h1, h2, h3⟩ := h
  refine ⟨?_, ?_, ?_⟩
  · rw [List.head?_map, h1]; rfl
  · rw [List.getLast?_map, h2]; rfl
  · rw [List.chain'_map]
    exact List.Chain'.imp (fun a b hab => ⟨hab.1, hab.2.1⟩) h3

/-! ## Properties of the neighbour expansion -/

/-- Unfolding `expandNeighbors` on a direction whose target passes the guard. -/
theorem expandNeighbors_cons_pos {rows cols : Nat} {grid : GridT} {cell : Cell}
    {path : List Cell} {d : Int × Int} {ds : List (Int × Int)} {vset : List Coord}
    {vcells : List Cell}
    (hC : inBounds rows cols (cell.row + d.1) (cell.col + d.2) = true ∧
      (cell.row + d.1, cell.col + d.2) ∉ vset ∧
      grid (cell.row + d.1) (cell.col + d.2) ≠ CellType.wall) :
    expandNeighbors rows cols grid cell path (d :: ds) vset vcells =
      ((⟨cell.row + d.1, cell.col + d.2, grid (cell.row + d.1) (cell.col + d.2)⟩,
          path ++ [⟨cell.row + d.1, cell.col + d.2, grid (cell.row + d.1) (cell.col + d.2)⟩]) ::
        (expandNeighbors rows cols grid cell path ds
          ((cell.row + d.1, cell.col + d.2) :: vset)
          (vcells ++ [⟨cell.row + d.1, cell.col + d.2,
            grid (cell.row + d.1) (cell.col + d.2)⟩])).1,
       (expandNeighbors rows cols grid cell path ds
          ((cell.row + d.1, cell.col + d.2) :: vset)
          (vcells ++ [⟨cell.row + d.1, cell.col + d.2,
            grid (cell.row + d.1) (cell.col + d.2)⟩])).2) := by
  simp only [expandNeighbors]
  rw [if_pos hC]

/-- Unfolding `expandNeighbors` on a direction whose target fails the guard. -/
theorem expandNeighbors_cons_neg {rows cols : Nat} {grid : GridT} {cell : Cell}
    {path : List Cell} {d : Int × Int} {ds : List (Int × Int)} {vset : List Coord}
    {vcells : List Cell}
    (hC : ¬ (inBounds rows cols (cell.row + d.1) (cell.col + d.2) = true ∧
      (cell.row + d.1, cell.col + d.2) ∉ vset ∧
      grid (cell.row + d.1) (cell.col + d.2) ≠ CellType.wall)) :
    expandNeighbors rows cols grid cell path (d :: ds) vset vcells =
      expandNeighbors rows cols grid cell path ds vset vcells := by
  simp only [expandNeighbors]
  rw [if_neg hC]

theorem expand_vset_mono {rows cols : Nat} {grid : GridT} {cell : Cell} {path : List Cell} :
    ∀ (ds : List (Int × Int)) (vset : List Coord) (vcells : List Cell) (x : Coord),
      x ∈ vset → x ∈ (expandNeighbors rows cols grid cell path ds vset vcells).2.1
  | [], _, _, _, hx => hx
  | d :: ds, vset, vcells, x, hx => by
    by_cases hC : inBounds rows cols (cell.row + d.1) (cell.col + d.2) = true ∧
        (cell.row + d.1, cell.col + d.2) ∉ vset ∧
        grid (cell.row + d.1) (cell.col + d.2) ≠ CellType.wall
    · rw [expandNeighbors_cons_pos hC]
      exact expand_vset_mono ds _ _ x (List.mem_cons_of_mem _ hx)
    · rw [expandNeighbors_cons_neg hC]
      exact expand_vset_mono ds _ _ x hx

theorem expand_vcells {rows cols : Nat} {grid : GridT} {cell : Cell} {path : List Cell} :
    ∀ (ds : List (Int × Int)) (vset : List Coord) (vcells : List Cell),
      (expandNeighbors rows cols grid cell path ds vset vcells).2.2 =
        vcells ++ (expandNeighbors rows cols grid cell path ds vset vcells).1.map Prod.fst
  | [], _, _ => by simp [expandNeighbors]
  | d :: ds, vset, vcells => by
    by_cases hC : inBounds rows cols (cell.row + d.1) (cell.col + d.2) = true ∧
        (cell.row + d.1, cell.col + d.2) ∉ vset ∧
        grid (cell.row + d.1) (cell.col + d.2) ≠ CellType.wall
    · rw [expandNeighbors_cons_pos hC]
      rw [expand_vcells ds _ _]
      simp
    · rw [expandNeighbors_cons_neg hC]
      exact expand_vcells ds _ _

theorem expand_pushes {rows cols : Nat} {grid : GridT} {cell : Cell} {path : List Cell} :
    ∀ (ds : List (Int × Int)) (vset : List Coord) (vcells : List Cell),
      ∀ e ∈ (expandNeighbors rows cols grid cell path ds vset vcells).1,
        (∃ d ∈ ds, e.1.row = cell.row + d.1 ∧ e.1.col = cell.col + d.2) ∧
        e.1.type = grid e.1.row e.1.col ∧
        e.2 = path ++ [e.1] ∧
        good rows cols grid (coordOf e.1) ∧
        coordOf e.1 ∉ vset ∧
        coordOf e.1 ∈ (expandNeighbors rows cols grid cell path ds vset vcells).2.1
  | [], _, _, _, he => by simp [expandNeighbors] at he
  | d :: ds, vset, vcells, e, he => by
    by_cases hC : inBounds rows cols (cell.row + d.1) (cell.col + d.2) = true ∧
        (cell.row + d.1, cell.col + d.2) ∉ vset ∧
        grid (cell.row + d.1) (cell.col + d.2) ≠ CellType.wall
    · rw [expandNeighbors_cons_pos hC] at he ⊢
      rcases List.mem_cons.mp he with rfl | he
      · refine ⟨⟨d, by simp, rfl, rfl⟩, rfl, rfl, ⟨hC.1, hC.2.2⟩, hC.2.1, ?_⟩
        exact expand_vset_mono ds _ _ _ (by simp [coordOf])
      · obtain ⟨⟨d', hd', he1⟩, he2, he3, he4, he5, he6⟩ := expand_pushes ds _ _ e he
        exact ⟨⟨d', List.mem_cons_of_mem _ hd', he1⟩, he2, he3, he4,
          fun hx => he5 (List.mem_cons_of_mem _ hx), he6⟩
    · rw [expandNeighbors_cons_neg hC] at he ⊢
      obtain ⟨⟨d', hd', he1⟩, he2, he3, he4, he5, he6⟩ := expand_pushes ds _ _ e he
      exact ⟨⟨d', List.mem_cons_of_mem _ hd', he1⟩, he2, he3, he4, he5, he6⟩

theorem expand_new_nodup {rows cols : Nat} {grid : GridT} {cell : Cell} {path : List Cell} :
    ∀ (ds : List (Int × Int)) (vset : List Coord) (vcells : List Cell),
      ((expandNeighbors rows cols grid cell path ds vset vcells).1.map
        (fun e => coordOf e.1)).Nodup
  | [], _, _ => by simp [expandNeighbors]
  | d :: ds, vset, vcells => by
    by_cases hC : inBounds rows cols (cell.row + d.1) (cell.col + d.2) = true ∧
        (cell.row + d.1, cell.col + d.2) ∉ vset ∧
        grid (cell.row + d.1) (cell.col + d.2) ≠ CellType.wall
    · rw [expandNeighbors_cons_pos hC]
      rw [List.map_cons, List.nodup_cons]
      constructor
      · intro hmem
        obtain ⟨e, he, hcoord⟩ := List.mem_map.mp hmem
        have h5 := (expand_pushes ds _ _ e he).2.2.2.2.1
        rw [hcoord] at h5
        exact h5 (by simp [coordOf])
      · exact expand_new_nodup ds _ _
    · rw [expandNeighbors_cons_neg hC]
      exact expand_new_nodup ds _ _

theorem expand_vset_members {rows cols : Nat} {grid : GridT} {cell : Cell} {path : List Cell} :
    ∀ (ds : List (Int × Int)) (vset : List Coord) (vcells : List Cell),
      ∀ x ∈ (expandNeighbors rows cols grid cell path ds vset vcells).2.1,
        x ∈ vset ∨ ∃ e ∈ (expandNeighbors rows cols grid cell path ds vset vcells).1,
          coordOf e.1 = x
  | [], _, _, _, hx => Or.inl hx
  | d :: ds, vset, vcells, x, hx => by
    by_cases hC : inBounds rows cols (cell.row + d.1) (cell.col + d.2) = true ∧
        (cell.row + d.1, cell.col + d.2) ∉ vset ∧
        grid (cell.row + d.1) (cell.col + d.2) ≠ CellType.wall
    · rw [expandNeighbors_cons_pos hC] at hx ⊢
      rcases expand_vset_members ds _ _ x hx with hx' | ⟨e, he, hce⟩
      · rcases List.mem_cons.mp hx' with rfl | hx''
        · exact Or.inr ⟨_, List.mem_cons_self _ _, rfl⟩
        · exact Or.inl hx''
      · exact Or.inr ⟨e, List.mem_cons_of_mem _ he, hce⟩
    · rw [expandNeighbors_cons_neg hC] at hx ⊢
      exact expand_vset_members ds _ _ x hx

theorem expand_covers {rows cols : Nat} {grid : GridT} {cell : Cell} {path : List Cell} :
    ∀ (ds : List (Int × Int)) (vset : List Coord) (vcells : List Cell),
      ∀ d ∈ ds, good rows cols grid (cell.row + d.1, cell.col + d.2) →
        (cell.row + d.1, cell.col + d.2) ∈
          (expandNeighbors rows cols grid cell path ds vset vcells).2.1
  | [], _, _, _, hd, _ => by simp at hd
  | d' :: ds, vset, vcells, d, hd, hg => by
    by_cases hC : inBounds rows cols (cell.row + d'.1) (cell.col + d'.2) = true ∧
        (cell.row + d'.1, cell.col + d'.2) ∉ vset ∧
        grid (cell.row + d'.1) (cell.col + d'.2) ≠ CellType.wall
    · rw [expandNeighbors_cons_pos hC]
      rcases List.mem_cons.mp hd with rfl | hd'
      · exact expand_vset_mono ds _ _ _ (List.mem_cons_self _ _)
      · exact expand_covers ds _ _ d hd' hg
    · rw [expandNeighbors_cons_neg hC]
      rcases List.mem_cons.mp hd with rfl | hd'
      · have hv : (cell.row + d.1, cell.col + d.2) ∈ vset := by
          by_contra hv
          exact hC ⟨hg.1, hv, hg.2⟩
        exact expand_vset_mono ds _ _ _ hv
      · exact expand_covers ds _ _ d hd' hg

theorem expand_vset_nodup {rows cols : Nat} {grid : GridT} {cell : Cell} {path : List Cell} :
    ∀ (ds : List (Int × Int)) (vset : List Coord) (vcells : List Cell),
      vset.Nodup → (expandNeighbors rows cols grid cell path ds vset vcells).2.1.Nodup
  | [], _, _, h => h
  | d :: ds, vset, vcells, h => by
    by_cases hC : inBounds rows cols (cell.row + d.1) (cell.col + d.2) = true ∧
        (cell.row + d.1, cell.col + d.2) ∉ vset ∧
        grid (cell.row + d.1) (cell.col + d.2) ≠ CellType.wall
    · rw [expandNeighbors_cons_pos hC]
      exact expand_vset_nodup ds _ _ (List.nodup_cons.mpr ⟨hC.2.1, h⟩)
    · rw [expandNeighbors_cons_neg hC]
      exact expand_vset_nodup ds _ _ h

/-- The number of in-bounds coordinates recorded in the visited set. -/
def ibCount (rows cols : Nat) (vset : List Coord) : Nat :=
  (vset.filter fun c => inBounds rows cols c.1 c.2).length

theorem expand_ibCount {rows cols : Nat} {grid : GridT} {cell : Cell} {path : List Cell} :
    ∀ (ds : List (Int × Int)) (vset : List Coord) (vcells : List Cell),
      ibCount rows cols (expandNeighbors rows cols grid cell path ds vset vcells).2.1 =
        ibCount rows cols vset +
          (expandNeighbors rows cols grid cell path ds vset vcells).1.length
  | [], _, _ => rfl
  | d :: ds, vset, vcells => by
    by_cases hC : inBounds rows cols (cell.row + d.1) (cell.col + d.2) = true ∧
        (cell.row + d.1, cell.col + d.2) ∉ vset ∧
        grid (cell.row + d.1) (cell.col + d.2) ≠ CellType.wall
    · rw [expandNeighbors_cons_pos hC]
      rw [expand_ibCount ds _ _]
      have hcons : ibCount rows cols ((cell.row + d.1, cell.col + d.2) :: vset) =
          ibCount rows cols vset + 1 := by
        simp only [ibCount, List.filter_cons, hC.1]
        simp
      rw [hcons]
      simp only [List.length_cons]
      omega
    · rw [expandNeighbors_cons_neg hC]
      exact expand_ibCount ds _ _

/-- A duplicate-free visited set has at most `rows * cols` in-bounds members. -/
theorem ibCount_le {rows cols : Nat} {vset : List Coord} (h : vset.Nodup) :
    ibCount rows cols vset ≤ rows * cols := by
  have hnd : (vset.filter fun c => inBounds rows cols c.1 c.2).Nodup := List.Nodup.filter _ h
  have hsub : (vset.filter fun c => inBounds rows cols c.1 c.2).toFinset ⊆
      (Finset.Ico (0 : Int) (rows : Int)) ×ˢ (Finset.Ico (0 : Int) (cols : Int)) := by
    intro x hx
    rw [List.mem_toFinset, List.mem_filter] at hx
    have hb := inBounds_iff.mp hx.2
    rw [Finset.mem_product, Finset.mem_Ico, Finset.mem_Ico]
    exact ⟨⟨hb.1, hb.2.1⟩, hb.2.2⟩
  have hcard := Finset.card_le_card hsub
  rw [List.toFinset_card_of_nodup hnd, Finset.card_product, Int.card_Ico, Int.card_Ico] at hcard
  simpa using hcard

/-! ## The shared loop invariant -/

/-- The invariant maintained by both traversal loops, insensitive to which
frontier entry is removed next.  `frontier` is the queue/stack, `vset` the
visited coordinate set, `vcells` the discovery-order visited cell list. -/
structure SearchInv (rows cols : Nat) (grid : GridT) (startCell endCell : Cell)
    (fuel : Nat) (frontier : List (Cell × List Cell)) (vset : List Coord)
    (vcells : List Cell) : Prop where
  entries_ok : ∀ e ∈ frontier, EntryOk rows cols grid startCell e
  frontier_vset : ∀ e ∈ frontier, coordOf e.1 ∈ vset
  start_mem : coordOf startCell ∈ vset
  vset_nodup : vset.Nodup
  closed_or_pending : ∀ c ∈ vset, (∃ e ∈ frontier, coordOf e.1 = c) ∨
      ∀ b, stepOk rows cols grid c b → b ∈ vset
  end_pending : coordOf endCell ∈ vset → ∃ e ∈ frontier, coordOf e.1 = coordOf endCell
  vcells_sub : ∀ c ∈ vcells, coordOf c ∈ vset
  vcells_nodup : (vcells.map coordOf).Nodup
  vcells_not_start : coordOf startCell ∉ vcells.map coordOf
  fuel_ok : frontier.length + rows * cols ≤ fuel + ibCount rows cols vset

theorem mem_append_cons_of_mem_append {α : Type} {X Y : List α} {a x : α}
    (h : x ∈ X ++ Y) : x ∈ X ++ a :: Y := by
  rcases List.mem_append.mp h with h | h
  · exact List.mem_append_left _ h
  · exact List.mem_append_right _ (List.mem_cons_of_mem _ h)

/-- One loop iteration preserves the invariant, whichever frontier entry is
removed (`X = []` for the bfs queue, `Y = []` for the dfs stack). -/
theorem searchInv_step {rows cols : Nat} {grid : GridT} {sC eC : Cell} {fuel : Nat}
    {X Y : List (Cell × List Cell)} {cell : Cell} {path : List Cell}
    {vset : List Coord} {vcells : List Cell}
    (inv : SearchInv rows cols grid sC eC (fuel + 1) (X ++ (cell, path) :: Y) vset vcells)
    (hne : ¬ (cell.row = eC.row ∧ cell.col = eC.col)) :
    SearchInv rows cols grid sC eC fuel
      ((X ++ Y) ++ (expandNeighbors rows cols grid cell path directions vset vcells).1)
      (expandNeighbors rows cols grid cell path directions vset vcells).2.1
      (expandNeighbors rows cols grid cell path directions vset vcells).2.2 := by
  have hcp : EntryOk rows cols grid sC (cell, path) := inv.entries_ok _ (by simp)
  obtain ⟨hph, hpl, hpc⟩ := hcp
  refine ⟨?_, ?_, ?_, ?_, ?_, ?_, ?_, ?_, ?_, ?_⟩
  · -- entries_ok
    intro e he
    rcases List.mem_append.mp he with he | he
    · exact inv.entries_ok e (mem_append_cons_of_mem_append he)
    · obtain ⟨⟨d, hd, he1, he2⟩, hty, hpath, hgood, _, _⟩ :=
        expand_pushes directions vset vcells e he
      have hph' : path.head? = some sC := hph
      obtain ⟨t, hpt⟩ := head_cons_of_head? hph'
      refine ⟨?_, ?_, ?_⟩
      · rw [hpath, hpt]; rfl
      · rw [hpath]; exact List.getLast?_concat _
      · rw [hpath, List.chain'_append]
        refine ⟨hpc, List.chain'_singleton _, ?_⟩
        intro u hu v hv
        simp only [List.head?_cons, Option.mem_def, Option.some.injEq] at hv
        rw [hpl] at hu
        simp only [Option.mem_def, Option.some.injEq] at hu
        subst hu; subst hv
        refine ⟨?_, hgood, hty⟩
        have hco : coordOf e.1 = (cell.row + d.1, cell.col + d.2) := by
          simp [coordOf, he1, he2]
        rw [hco]
        exact manhattan_of_dir hd (coordOf cell)
  · -- frontier_vset
    intro e he
    rcases List.mem_append.mp he with he | he
    · exact expand_vset_mono directions vset vcells _
        (inv.frontier_vset e (mem_append_cons_of_mem_append he))
    · exact (expand_pushes directions vset vcells e he).2.2.2.2.2
  · -- start_mem
    exact expand_vset_mono directions vset vcells _ inv.start_mem
  · -- vset_nodup
    exact expand_vset_nodup directions vset vcells inv.vset_nodup
  · -- closed_or_pending
    intro c hc
    rcases expand_vset_members directions vset vcells c hc with hc' | ⟨e, he, hce⟩
    · rcases inv.closed_or_pending c hc' with ⟨e, he, hce⟩ | hclosed
      · rcases List.mem_append.mp he with he | he
        · exact Or.inl ⟨e, List.mem_append_left _ (List.mem_append_left _ he), hce⟩
        · rcases List.mem_cons.mp he with rfl | he
          · -- the popped entry: now fully expanded
            refine Or.inr ?_
            intro b hb
            obtain ⟨d, hd, hbd⟩ := dir_of_manhattan hb.1
            have hbd' : b = (cell.row + d.1, cell.col + d.2) := by
              rw [← hce] at hbd; exact hbd
            rw [hbd']
            exact expand_covers directions vset vcells d hd (hbd' ▸ hb.2)
          · exact Or.inl ⟨e, List.mem_append_left _ (List.mem_append_right _ he), hce⟩
      · exact Or.inr fun b hb => expand_vset_mono directions vset vcells _ (hclosed b hb)
    · exact Or.inl ⟨e, List.mem_append_right _ he, hce⟩
  · -- end_pending
    intro hev
    rcases expand_vset_members directions vset vcells _ hev with hc' | ⟨e, he, hce⟩
    · obtain ⟨e, he, hce⟩ := inv.end_pending hc'
      rcases List.mem_append.mp he with he | he
      · exact ⟨e, List.mem_append_left _ (List.mem_append_left _ he), hce⟩
      · rcases List.mem_cons.mp he with rfl | he
        · exact absurd (by simpa [coordOf, Prod.ext_iff] using hce) hne
        · exact ⟨e, List.mem_append_left _ (List.mem_append_right _ he), hce⟩
    · exact ⟨e, List.mem_append_right _ he, hce⟩
  · -- vcells_sub
    intro c hc
    rw [expand_vcells directions vset vcells] at hc
    rcases List.mem_append.mp hc with hc | hc
    · exact expand_vset_mono directions vset vcells _ (inv.vcells_sub c hc)
    · obtain ⟨e, he, rfl⟩ := List.mem_map.mp hc
      exact (expand_pushes directions vset vcells e he).2.2.2.2.2
  · -- vcells_nodup
    rw [expand_vcells directions vset vcells, List.map_append, List.nodup_append]
    refine ⟨inv.vcells_nodup, ?_, ?_⟩
    · rw [List.map_map]
      exact expand_new_nodup directions vset vcells
    · intro a ha hb
      obtain ⟨c, hc, rfl⟩ := List.mem_map.mp ha
      rw [List.map_map] at hb
      obtain ⟨e, he, hce⟩ := List.mem_map.mp hb
      have hce' : coordOf e.1 = coordOf c := hce
      exact (expand_pushes directions vset vcells e he).2.2.2.2.1
        (hce'.symm ▸ inv.vcells_sub c hc)
  · -- vcells_not_start
    rw [expand_vcells directions vset vcells, List.map_append]
    rw [List.mem_append]
    rintro (h | h)
    · exact inv.vcells_not_start h
    · rw [List.map_map] at h
      obtain ⟨e, he, hce⟩ := List.mem_map.mp h
      have hce' : coordOf e.1 = coordOf sC := hce
      exact (expand_pushes directions vset vcells e he).2.2.2.2.1 (hce'.symm ▸ inv.start_mem)
  · -- fuel_ok
    have hib := @expand_ibCount rows cols grid cell path directions vset vcells
    have hold := inv.fuel_ok
    simp only [List.length_append, List.length_cons] at hold ⊢
    omega

/-! ## The bfs levelling invariant -/

/-- Entry `e` carries a shortest algorithm path to its own cell. -/
def OptEntry (rows cols : Nat) (grid : GridT) (sC : Cell) (e : Cell × List Cell) : Prop :=
  ∀ q, AlgoPath rows cols grid q (coordOf sC) (coordOf e.1) → e.2.length ≤ q.length

/-- Every coordinate outside the visited set is only reachable by algorithm
paths of list length greater than `L`. -/
def FarUnvisited (rows cols : Nat) (grid : GridT) (sC : Cell) (vset : List Coord)
    (L : Nat) : Prop :=
  ∀ c, c ∉ vset → ∀ q, AlgoPath rows cols grid q (coordOf sC) c → L < q.length

/-- The bfs-specific invariant: the queue splits into a level-`L` prefix and a
level-`L+1` suffix, every entry carries a shortest path, and unvisited cells
are farther than `L`. -/
structure BfsInv (rows cols : Nat) (grid : GridT) (sC : Cell)
    (frontier : List (Cell × List Cell)) (vset : List Coord) : Prop where
  opt : ∀ e ∈ frontier, OptEntry rows cols grid sC e
  levels : ∃ L A B, 1 ≤ L ∧ frontier = A ++ B ∧ (∀ e ∈ A, e.2.length = L) ∧
      (∀ e ∈ B, e.2.length = L + 1) ∧ FarUnvisited rows cols grid sC vset L

/-- When the whole frontier sits at level `L + 1`, unvisited cells are in fact
farther than `L + 1`: a hypothetical path of length `L + 1` would have to step
from a visited cell that is either still pending — impossible, pending entries
are optimal and sit at `L + 1 > L` — or fully expanded, making the target
visited. -/
theorem far_bump {rows cols : Nat} {grid : GridT} {sC eC : Cell} {fuel : Nat}
    {frontier : List (Cell × List Cell)} {vset : List Coord} {vcells : List Cell} {L : Nat}
    (inv : SearchInv rows cols grid sC eC fuel frontier vset vcells)
    (hall : ∀ e ∈ frontier, e.2.length = L + 1)
    (hopt : ∀ e ∈ frontier, OptEntry rows cols grid sC e)
    (hFar : FarUnvisited rows cols grid sC vset L)
    (hL : 1 ≤ L) :
    FarUnvisited rows cols grid sC vset (L + 1) := by
  intro c hc q hq
  have h1 : L < q.length := hFar c hc q hq
  by_contra hle
  push_neg at hle
  have hlen2 : 2 ≤ q.length := by omega
  obtain ⟨q', c', hq', hstep, _, hqlen⟩ := algoPath_decomp hq hlen2
  have hq'len : q'.length = L := by omega
  have hc' : c' ∈ vset := by
    by_contra hc'
    have := hFar c' hc' q' hq'
    omega
  rcases inv.closed_or_pending c' hc' with ⟨e, he, hce⟩ | hclosed
  · have hlen := hall e he
    have := hopt e he q' (hce.symm ▸ hq')
    omega
  · exact hc (hclosed c hstep)

/-- One bfs iteration preserves the levelling invariant. -/
theorem bfsInv_step {rows cols : Nat} {grid : GridT} {sC eC : Cell} {fuel : Nat}
    {cell : Cell} {path : List Cell} {rest : List (Cell × List Cell)}
    {vset : List Coord} {vcells : List Cell}
    (inv : SearchInv rows cols grid sC eC (fuel + 1) ((cell, path) :: rest) vset vcells)
    (binv : BfsInv rows cols grid sC ((cell, path) :: rest) vset) :
    BfsInv rows cols grid sC
      (rest ++ (expandNeighbors rows cols grid cell path directions vset vcells).1)
      (expandNeighbors rows cols grid cell path directions vset vcells).2.1 := by
  obtain ⟨L, A, B, hL, hAB, hA, hB, hFar⟩ := binv.levels
  have hnotmem : ∀ x : Coord,
      x ∉ (expandNeighbors rows cols grid cell path directions vset vcells).2.1 → x ∉ vset :=
    fun x hx hv => hx (expand_vset_mono directions vset vcells x hv)
  cases A with
  | cons a A' =>
    have ha : a = (cell, path) := by
      have := congrArg List.head? hAB
      simpa using this.symm
    subst ha
    have hrest : rest = A' ++ B := by
      have := congrArg List.tail hAB
      simpa using this
    have hplen : path.length = L := hA (cell, path) (List.mem_cons_self _ _)
    refine ⟨?_, L, A', B ++ (expandNeighbors rows cols grid cell path directions vset vcells).1,
      hL, by rw [hrest, List.append_assoc], fun e he => hA e (List.mem_cons_of_mem _ he), ?_, ?_⟩
    · -- opt
      intro e he
      rcases List.mem_append.mp he with he | he
      · exact binv.opt e (List.mem_cons_of_mem _ he)
      · intro q hq
        obtain ⟨_, _, hpath, _, hnv, _⟩ := expand_pushes directions vset vcells e he
        have hfar := hFar _ hnv q hq
        rw [hpath]
        simp only [List.length_append, List.length_cons, List.length_nil]
        omega
    · -- level L+1 entries
      intro e he
      rcases List.mem_append.mp he with he | he
      · exact hB e he
      · obtain ⟨_, _, hpath, _, _, _⟩ := expand_pushes directions vset vcells e he
        rw [hpath]
        simp only [List.length_append, List.length_cons, List.length_nil]
        omega
    · -- far
      intro c hc q hq
      exact hFar c (hnotmem c hc) q hq
  | nil =>
    simp only [List.nil_append] at hAB
    have hall : ∀ e ∈ (cell, path) :: rest, e.2.length = L + 1 := fun e he => hB e (hAB ▸ he)
    have hplen : path.length = L + 1 := hall (cell, path) (List.mem_cons_self _ _)
    have hbump := far_bump inv hall binv.opt hFar hL
    refine ⟨?_, L + 1, rest,
      (expandNeighbors rows cols grid cell path directions vset vcells).1,
      by omega, rfl, fun e he => hall e (List.mem_cons_of_mem _ he), ?_, ?_⟩
    · -- opt
      intro e he
      rcases List.mem_append.mp he with he | he
      · exact binv.opt e (List.mem_cons_of_mem _ he)
      · intro q hq
        obtain ⟨_, _, hpath, _, hnv, _⟩ := expand_pushes directions vset vcells e he
        have hfar := hbump _ hnv q hq
        rw [hpath]
        simp only [List.length_append, List.length_cons, List.length_nil]
        omega
    · -- level L+2 entries
      intro e he
      obtain ⟨_, _, hpath, _, _, _⟩ := expand_pushes directions vset vcells e he
      rw [hpath]
      simp only [List.length_append, List.length_cons, List.length_nil]
      omega
    · -- far
      intro c hc q hq
      exact hbump c (hnotmem c hc) q hq

/-! ## Initial states and terminal states -/

theorem searchInv_init {rows cols : Nat} {grid : GridT} (sC eC : Cell) :
    SearchInv rows cols grid sC eC (rows * cols + 1)
      [(sC, [sC])] [coordOf sC] [] := by
  refine ⟨?_, ?_, ?_, ?_, ?_, ?_, ?_, ?_, ?_, ?_⟩
  · intro e he
    simp only [List.mem_singleton] at he
    subst he
    exact ⟨rfl, by simp, List.chain'_singleton _⟩
  · intro e he
    simp only [List.mem_singleton] at he
    subst he
    exact List.mem_cons_self _ _
  · exact List.mem_cons_self _ _
  · simp
  · intro c hc
    simp only [List.mem_singleton] at hc
    subst hc
    exact Or.inl ⟨(sC, [sC]), List.mem_cons_self _ _, rfl⟩
  · intro h
    refine ⟨(sC, [sC]), List.mem_cons_self _ _, ?_⟩
    simp only [List.mem_singleton] at h
    exact h.symm
  · intro c hc
    simp at hc
  · simp
  · simp
  · simp only [List.length_singleton]
    omega

theorem bfsInv_init {rows cols : Nat} {grid : GridT} (sC : Cell) :
    BfsInv rows cols grid sC [(sC, [sC])] [coordOf sC] := by
  refine ⟨?_, 1, [(sC, [sC])], [], le_refl 1, by simp, ?_, by simp, ?_⟩
  · intro e he
    simp only [List.mem_singleton] at he
    subst he
    intro q hq
    have := algoPath_length_pos hq
    simpa using this
  · intro e he
    simp only [List.mem_singleton] at he
    subst he
    rfl
  · intro c hc q hq
    by_contra h
    push_neg at h
    have h1 := algoPath_length_pos hq
    have hq1 : q.length = 1 := by omega
    have hse := algoPath_single hq hq1
    exact hc (by rw [← hse]; exact List.mem_cons_self _ _)

theorem searchInv_empty_unreachable {rows cols : Nat} {grid : GridT} {sC eC : Cell}
    {fuel : Nat} {vset : List Coord} {vcells : List Cell}
    (inv : SearchInv rows cols grid sC eC fuel [] vset vcells) :
    ¬ ∃ q, AlgoPath rows cols grid q (coordOf sC) (coordOf eC) := by
  rintro ⟨q, hq⟩
  have hclosed : ∀ c ∈ vset, ∀ b, stepOk rows cols grid c b → b ∈ vset := by
    intro c hc
    rcases inv.closed_or_pending c hc with ⟨e, he, _⟩ | h
    · simp at he
    · exact h
  have hend := reachable_mem_closed hclosed hq inv.start_mem
  obtain ⟨e, he, _⟩ := inv.end_pending hend
  simp at he

theorem searchInv_fuel_pos {rows cols : Nat} {grid : GridT} {sC eC : Cell}
    {f : Cell × List Cell} {fs : List (Cell × List Cell)}
    {vset : List Coord} {vcells : List Cell}
    (inv : SearchInv rows cols grid sC eC 0 (f :: fs) vset vcells) : False := by
  have h1 := inv.fuel_ok
  have h2 := @ibCount_le rows cols vset inv.vset_nodup
  simp only [List.length_cons] at h1
  omega

/-! ## Loop correctness -/

/-- The contract both loops establish for their result: a found path is a
valid cell-level path from the start cell to the end coordinate; if the end
is algorithm-reachable the run reports `found`; a failed run reports an empty
path; and the visited list repeats no coordinate and omits the start. -/
def ResultOk (rows cols : Nat) (grid : GridT) (sC eC : Cell) (r : PathResult) : Prop :=
  (r.found = true → r.path.head? = some sC ∧
    List.Chain' (cellStep rows cols grid) r.path ∧
    ∃ lc, r.path.getLast? = some lc ∧ lc.row = eC.row ∧ lc.col = eC.col) ∧
  ((∃ q, AlgoPath rows cols grid q (coordOf sC) (coordOf eC)) → r.found = true) ∧
  (r.found = false → r.path = []) ∧
  (r.visited.map coordOf).Nodup ∧
  coordOf sC ∉ r.visited.map coordOf

theorem bfsLoop_ok {rows cols : Nat} {grid : GridT} {sC eC : Cell} :
    ∀ (fuel : Nat) (frontier : List (Cell × List Cell)) (vset : List Coord)
      (vcells : List Cell),
      SearchInv rows cols grid sC eC fuel frontier vset vcells →
      BfsInv rows cols grid sC frontier vset →
      ResultOk rows cols grid sC eC (bfsLoop rows cols grid eC fuel frontier vset vcells) ∧
      ((bfsLoop rows cols grid eC fuel frontier vset vcells).found = true →
        ∀ q, AlgoPath rows cols grid q (coordOf sC) (coordOf eC) →
          (bfsLoop rows cols grid eC fuel frontier vset vcells).path.length ≤ q.length)
  | fuel, [], vset, vcells, inv, _ => by
    have hres : bfsLoop rows cols grid eC fuel [] vset vcells = ⟨[], vcells, false⟩ := by
      cases fuel <;> rfl
    rw [hres]
    have hunreach := searchInv_empty_unreachable inv
    refine ⟨⟨?_, ?_, ?_, ?_, ?_⟩, ?_⟩
    · intro h; simp at h
    · exact fun h => absurd h hunreach
    · exact fun _ => rfl
    · exact inv.vcells_nodup
    · exact inv.vcells_not_start
    · intro h; simp at h
  | 0, f :: fs, vset, vcells, inv, _ => (searchInv_fuel_pos inv).elim
  | fuel + 1, (cell, path) :: rest, vset, vcells, inv, binv => by
    by_cases h : cell.row = eC.row ∧ cell.col = eC.col
    · have hres : bfsLoop rows cols grid eC (fuel + 1) ((cell, path) :: rest) vset vcells =
          ⟨path, vcells, true⟩ := by
        simp only [bfsLoop]
        rw [if_pos h]
      rw [hres]
      obtain ⟨hph, hpl, hpc⟩ := inv.entries_ok (cell, path) (List.mem_cons_self _ _)
      have hco : coordOf cell = coordOf eC := by
        simp [coordOf, h.1, h.2]
      refine ⟨⟨?_, ?_, ?_, ?_, ?_⟩, ?_⟩
      · exact fun _ => ⟨hph, hpc, cell, hpl, h.1, h.2⟩
      · exact fun _ => rfl
      · intro habs; simp at habs
      · exact inv.vcells_nodup
      · exact inv.vcells_not_start
      · intro _ q hq
        exact binv.opt (cell, path) (List.mem_cons_self _ _) q (hco.symm ▸ hq)
    · have hres : bfsLoop rows cols grid eC (fuel + 1) ((cell, path) :: rest) vset vcells =
          bfsLoop rows cols grid eC fuel
            (rest ++ (expandNeighbors rows cols grid cell path directions vset vcells).1)
            (expandNeighbors rows cols grid cell path directions vset vcells).2.1
            (expandNeighbors rows cols grid cell path directions vset vcells).2.2 := by
        simp only [bfsLoop]
        rw [if_neg h]
      rw [hres]
      have hstep := searchInv_step (X := []) inv h
      have hbinv := bfsInv_step inv binv
      exact bfsLoop_ok fuel _ _ _ hstep hbinv

theorem dfsLoop_ok {rows cols : Nat} {grid : GridT} {sC eC : Cell} :
    ∀ (fuel : Nat) (frontier : List (Cell × List Cell)) (vset : List Coord)
      (vcells : List Cell),
      SearchInv rows cols grid sC eC fuel frontier vset vcells →
      ResultOk rows cols grid sC eC (dfsLoop rows cols grid eC fuel frontier vset vcells)
  | fuel, [], vset, vcells, inv => by
    have hres : dfsLoop rows cols grid eC fuel [] vset vcells = ⟨[], vcells, false⟩ := by
      cases fuel <;> rfl
    rw [hres]
    have hunreach := searchInv_empty_unreachable inv
    refine ⟨?_, ?_, ?_, ?_, ?_⟩
    · intro h; simp at h
    · exact fun h => absurd h hunreach
    · exact fun _ => rfl
    · exact inv.vcells_nodup
    · exact inv.vcells_not_start
  | 0, f :: fs, vset, vcells, inv => (searchInv_fuel_pos inv).elim
  | fuel + 1, f :: fs, vset, vcells, inv => by
    by_cases h : ((f :: fs).getLast (List.cons_ne_nil f fs)).1.row = eC.row ∧
        ((f :: fs).getLast (List.cons_ne_nil f fs)).1.col = eC.col
    · have hres : dfsLoop rows cols grid eC (fuel + 1) (f :: fs) vset vcells =
          ⟨((f :: fs).getLast (List.cons_ne_nil f fs)).2, vcells, true⟩ := by
        simp only [dfsLoop]
        rw [if_pos h]
      rw [hres]
      obtain ⟨hph, hpl, hpc⟩ := inv.entries_ok ((f :: fs).getLast (List.cons_ne_nil f fs))
        (List.getLast_mem (List.cons_ne_nil f fs))
      refine ⟨?_, ?_, ?_, ?_, ?_⟩
      · exact fun _ => ⟨hph, hpc, _, hpl, h.1, h.2⟩
      · exact fun _ => rfl
      · intro habs; simp at habs
      · exact inv.vcells_nodup
      · exact inv.vcells_not_start
    · have hfront : f :: fs =
          (f :: fs).dropLast ++ ((f :: fs).getLast (List.cons_ne_nil f fs)) :: [] := by
        have := List.dropLast_append_getLast (List.cons_ne_nil f fs)
        exact this.symm
      have hres : dfsLoop rows cols grid eC (fuel + 1) (f :: fs) vset vcells =
          dfsLoop rows cols grid eC fuel
            ((f :: fs).dropLast ++ (expandNeighbors rows cols grid
              ((f :: fs).getLast (List.cons_ne_nil f fs)).1
              ((f :: fs).getLast (List.cons_ne_nil f fs)).2 directions vset vcells).1)
            (expandNeighbors rows cols grid
              ((f :: fs).getLast (List.cons_ne_nil f fs)).1
              ((f :: fs).getLast (List.cons_ne_nil f fs)).2 directions vset vcells).2.1
            (expandNeighbors rows cols grid
              ((f :: fs).getLast (List.cons_ne_nil f fs)).1
              ((f :: fs).getLast (List.cons_ne_nil f fs)).2 directions vset vcells).2.2 := by
        simp only [dfsLoop]
        rw [if_neg h]
      rw [hres]
      rw [hfront] at inv
      have hstep := searchInv_step inv h
      rw [List.append_nil] at hstep
      exact dfsLoop_ok fuel _ _ _ hstep

theorem bfs_resultOk (rows cols : Nat) (grid : GridT) (sC eC : Cell) :
    ResultOk rows cols grid sC eC (bfs rows cols grid sC eC) ∧
    ((bfs rows cols grid sC eC).found = true →
      ∀ q, AlgoPath rows cols grid q (coordOf sC) (coordOf eC) →
        (bfs rows cols grid sC eC).path.length ≤ q.length) :=
  bfsLoop_ok _ _ _ _ (searchInv_init sC eC) (bfsInv_init sC)

theorem dfs_resultOk (rows cols : Nat) (grid : GridT) (sC eC : Cell) :
    ResultOk rows cols grid sC eC (dfs rows cols grid sC eC) :=
  dfsLoop_ok _ _ _ _ (searchInv_init sC eC)

/-- A found result exhibits an algorithm path from start to end. -/
theorem found_reachable {rows cols : Nat} {grid : GridT} {sC eC : Cell} {r : PathResult}
    (hok : ResultOk rows cols grid sC eC r) (hf : r.found = true) :
    ∃ q, AlgoPath rows cols grid q (coordOf sC) (coordOf eC) := by
  obtain ⟨hph, hpc, lc, hpl, h1, h2⟩ := hok.1 hf
  refine ⟨r.path.map coordOf, ?_⟩
  have halgo := entryOk_algoPath (e := (lc, r.path)) ⟨hph, hpl, hpc⟩
  have hco : coordOf lc = coordOf eC := by
    simp [coordOf, h1, h2]
  exact hco ▸ halgo

theorem cellStep_tail_not_wall {rows cols : Nat} {grid : GridT} :
    ∀ {p : List Cell}, List.Chain' (cellStep rows cols grid) p →
      ∀ c ∈ p.tail, c.type ≠ CellType.wall
  | [], _, _, hm => by simp at hm
  | [_], _, _, hm => by simp at hm
  | a :: b :: l, hc, c, hm => by
    rw [List.chain'_cons] at hc
    rcases List.mem_cons.mp hm with rfl | hm
    · rw [hc.1.2.2]
      exact hc.1.2.1.2
    · exact cellStep_tail_not_wall hc.2 c hm

/-- Soundness facts shared by both traversals: adjacency of consecutive path
cells and absence of walls beyond the first cell. -/
theorem resultOk_sound {rows cols : Nat} {grid : GridT} {sC eC : Cell} {r : PathResult}
    (hok : ResultOk rows cols grid sC eC r) :
    List.Chain' (fun a b : Cell => manhattan (coordOf a) (coordOf b) = 1) r.path ∧
    ∀ c ∈ r.path.tail, c.type ≠ CellType.wall := by
  cases hf : r.found with
  | false =>
    rw [hok.2.2.1 hf]
    exact ⟨List.chain'_nil, by simp⟩
  | true =>
    obtain ⟨_, hpc, _⟩ := hok.1 hf
    exact ⟨List.Chain'.imp (fun a b hab => hab.1) hpc, cellStep_tail_not_wall hpc⟩

/-! ## Concrete test grids -/

/-- The spec scenario grid: 5×5, start at `(0,0)`, end at `(0,4)`. -/
def grid5 : GridT := fun r c =>
  if r = 0 ∧ c = 0 then CellType.start
  else if r = 0 ∧ c = 4 then CellType.«end»
  else CellType.empty

def startCell5 : Cell := ⟨0, 0, CellType.start⟩

def endCell5 : Cell := ⟨0, 4, CellType.«end»⟩

/-- A grid whose cell `(0,0)` is a wall; used with a start reference that
points at that wall cell. -/
def gridW : GridT := fun r c =>
  if r = 0 ∧ c = 0 then CellType.wall else CellType.empty

def startW : Cell := ⟨0, 0, CellType.wall⟩

def endW : Cell := ⟨0, 1, CellType.empty⟩

/-- A grid enclosing the corner `(0,0)` behind walls at `(0,1)` and `(1,0)`. -/
def gridE : GridT := fun r c =>
  if (r = 0 ∧ c = 1) ∨ (r = 1 ∧ c = 0) then CellType.wall else CellType.empty

def startE : Cell := ⟨0, 0, CellType.empty⟩

def endE : Cell := ⟨4, 4, CellType.empty⟩

/-- No wall-free path leaves the enclosed corner of `gridE`. -/
theorem gridE_no_path : ∀ q, ¬ isWallFreePath 5 5 gridE q (0, 0) (4, 4) := by
  intro q hq
  obtain ⟨h1, h2, h3, h4⟩ := hq
  obtain ⟨t, rfl⟩ := head_cons_of_head? h1
  cases t with
  | nil =>
    simp at h2
    exact absurd h2 (by decide)
  | cons c2 t' =>
    rw [List.chain'_cons] at h3
    have hman := h3.1
    have hg := h4 c2 (by simp)
    obtain ⟨g1, g2⟩ := hg
    rw [inBounds_iff] at g1
    obtain ⟨c21, c22⟩ := c2
    simp only [manhattan] at hman
    have h4cases : (c21 = 0 ∧ c22 = 1) ∨ (c21 = 1 ∧ c22 = 0) ∨
        (c21 = 0 ∧ c22 = -1) ∨ (c21 = -1 ∧ c22 = 0) := by omega
    rcases h4cases with ⟨rfl, rfl⟩ | ⟨rfl, rfl⟩ | ⟨rfl, rfl⟩ | ⟨rfl, rfl⟩
    · exact g2 (by decide)
    · exact g2 (by decide)
    · simp at g1
    · simp at g1

/-! ## Claim theorems -/

/-- C1: whenever some wall-free orthogonal path joins the start and end
coordinates, `bfs` reports `found = true` and returns a path that is itself a
wall-free path whose edge count (`path.length - 1`) is the minimum over all
wall-free orthogonal paths between the two cells. -/
theorem bfs_shortest_path (rows cols : Nat) (grid : GridT) (startCell endCell : Cell)
    (h : ∃ q, isWallFreePath rows cols grid q (coordOf startCell) (coordOf endCell)) :
    (bfs rows cols grid startCell endCell).found = true ∧
    isWallFreePath rows cols grid
      ((bfs rows cols grid startCell endCell).path.map coordOf)
      (coordOf startCell) (coordOf endCell) ∧
    ∀ q, isWallFreePath rows cols grid q (coordOf startCell) (coordOf endCell) →
      (bfs rows cols grid startCell endCell).path.length ≤ q.length := by
  obtain ⟨q0, hq0⟩ := h
  have hgs : good rows cols grid (coordOf startCell) := by
    obtain ⟨t, hq0t⟩ := head_cons_of_head? hq0.1
    exact hq0.2.2.2 _ (by rw [hq0t]; exact List.mem_cons_self _ _)
  have hok := bfs_resultOk rows cols grid startCell endCell
  have hreach : ∃ q, AlgoPath rows cols grid q (coordOf startCell) (coordOf endCell) :=
    ⟨q0, wallFree_algoPath hq0⟩
  have hf : (bfs rows cols grid startCell endCell).found = true := hok.1.2.1 hreach
  refine ⟨hf, ?_, ?_⟩
  · obtain ⟨hph, hpc, lc, hpl, h1, h2⟩ := hok.1.1 hf
    have halgo := entryOk_algoPath (e := (lc, (bfs rows cols grid startCell endCell).path))
      ⟨hph, hpl, hpc⟩
    have hco : coordOf lc = coordOf endCell := by
      simp [coordOf, h1, h2]
    rw [hco] at halgo
    exact algoPath_wallFree halgo hgs
  · intro q hq
    exact hok.2 hf q (wallFree_algoPath hq)

/-- The straight east path across the top row of `grid5` is wall-free. -/
theorem wallFree_path5 :
    isWallFreePath 5 5 grid5 [(0, 0), (0, 1), (0, 2), (0, 3), (0, 4)]
      (coordOf startCell5) (coordOf endCell5) := by
  refine ⟨rfl, rfl, ?_, by decide⟩
  simp only [List.chain'_cons, List.chain'_singleton, and_true]
  refine ⟨by decide, by decide, by decide, by decide⟩

theorem bfs_shortest_path_witness :
    (∃ q, isWallFreePath 5 5 grid5 q (coordOf startCell5) (coordOf endCell5)) ∧
    ((bfs 5 5 grid5 startCell5 endCell5).found = true ∧
      isWallFreePath 5 5 grid5
        ((bfs 5 5 grid5 startCell5 endCell5).path.map coordOf)
        (coordOf startCell5) (coordOf endCell5) ∧
      ∀ q, isWallFreePath 5 5 grid5 q (coordOf startCell5) (coordOf endCell5) →
        (bfs 5 5 grid5 startCell5 endCell5).path.length ≤ q.length) :=
  ⟨⟨[(0, 0), (0, 1), (0, 2), (0, 3), (0, 4)], wallFree_path5⟩,
    bfs_shortest_path 5 5 grid5 startCell5 endCell5
      ⟨[(0, 0), (0, 1), (0, 2), (0, 3), (0, 4)], wallFree_path5⟩⟩

/-- C3 counterexample: when the start reference points at a wall cell, `bfs`
still reports found and the returned path contains that wall cell, refuting
the claim that no path cell has type wall. -/
theorem path_wall_counterexample :
    (bfs 5 5 gridW startW endW).found = true ∧
    startW ∈ (bfs 5 5 gridW startW endW).path ∧
    startW.type = CellType.wall := by
  decide

/-- C3 (amended): in every returned path, consecutive cells are at Manhattan
distance exactly 1, and no cell other than the first (the start cell, whose
type the traversals never check) has type wall — for both traversals. -/
theorem path_soundness (rows cols : Nat) (grid : GridT) (startCell endCell : Cell) :
    (List.Chain' (fun a b : Cell => manhattan (coordOf a) (coordOf b) = 1)
        (bfs rows cols grid startCell endCell).path ∧
      ∀ c ∈ (bfs rows cols grid startCell endCell).path.tail, c.type ≠ CellType.wall) ∧
    (List.Chain' (fun a b : Cell => manhattan (coordOf a) (coordOf b) = 1)
        (dfs rows cols grid startCell endCell).path ∧
      ∀ c ∈ (dfs rows cols grid startCell endCell).path.tail, c.type ≠ CellType.wall) :=
  ⟨resultOk_sound (bfs_resultOk rows cols grid startCell endCell).1,
    resultOk_sound (dfs_resultOk rows cols grid startCell endCell)⟩

/-- C4 counterexample: the start cell of `gridW` is a wall, so no wall-free
path from `(0,0)` to `(0,1)` exists, yet both traversals report found. -/
theorem unreachable_found_counterexample :
    (∀ q, ¬ isWallFreePath 5 5 gridW q (0, 0) (0, 1)) ∧
    (bfs 5 5 gridW startW endW).found = true ∧
    (dfs 5 5 gridW startW endW).found = true := by
  refine ⟨?_, by decide, by decide⟩
  intro q hq
  obtain ⟨t, hqt⟩ := head_cons_of_head? hq.1
  have hg := hq.2.2.2 (0, 0) (by rw [hqt]; exact List.mem_cons_self _ _)
  exact hg.2 (by decide)

/-- C4 (amended): provided the start cell is in bounds and not a wall, if no
wall-free orthogonal path joins start and end then both traversals report
`found = false` with an empty path. -/
theorem unreachable_reports_not_found (rows cols : Nat) (grid : GridT)
    (startCell endCell : Cell)
    (hgs : good rows cols grid (coordOf startCell))
    (h : ∀ q, ¬ isWallFreePath rows cols grid q (coordOf startCell) (coordOf endCell)) :
    (bfs rows cols grid startCell endCell).found = false ∧
    (bfs rows cols grid startCell endCell).path = [] ∧
    (dfs rows cols grid startCell endCell).found = false ∧
    (dfs rows cols grid startCell endCell).path = [] := by
  have hb := (bfs_resultOk rows cols grid startCell endCell).1
  have hd := dfs_resultOk rows cols grid startCell endCell
  have hnr : ¬ ∃ q, AlgoPath rows cols grid q (coordOf startCell) (coordOf endCell) := by
    rintro ⟨q, hq⟩
    exact h q (algoPath_wallFree hq hgs)
  have hbf : (bfs rows cols grid startCell endCell).found = false := by
    cases hf : (bfs rows cols grid startCell endCell).found
    · rfl
    · exact absurd (found_reachable hb hf) hnr
  have hdf : (dfs rows cols grid startCell endCell).found = false := by
    cases hf : (dfs rows cols grid startCell endCell).found
    · rfl
    · exact absurd (found_reachable hd hf) hnr
  exact ⟨hbf, hb.2.2.1 hbf, hdf, hd.2.2.1 hdf⟩

theorem unreachable_reports_not_found_witness :
    (good 5 5 gridE (coordOf startE) ∧
      (∀ q, ¬ isWallFreePath 5 5 gridE q (coordOf startE) (coordOf endE))) ∧
    ((bfs 5 5 gridE startE endE).found = false ∧
      (bfs 5 5 gridE startE endE).path = [] ∧
      (dfs 5 5 gridE startE endE).found = false ∧
      (dfs 5 5 gridE startE endE).path = []) :=
  ⟨⟨by decide, gridE_no_path⟩,
    unreachable_reports_not_found 5 5 gridE startE endE (by decide) gridE_no_path⟩

/-- C5: on the empty 5×5 grid with start `(0,0)` and end `(0,4)`, `bfs`
reports found with path exactly `[(0,0),(0,1),(0,2),(0,3),(0,4)]`, which has
edge count 4. -/
theorem bfs_scenario_5x5 :
    (bfs 5 5 grid5 startCell5 endCell5).found = true ∧
    (bfs 5 5 grid5 startCell5 endCell5).path.map coordOf =
      [(0, 0), (0, 1), (0, 2), (0, 3), (0, 4)] ∧
    (bfs 5 5 grid5 startCell5 endCell5).path.length - 1 = 4 := by
  decide

/-- C6: for fixed inputs, repeated invocations of either traversal yield
identical visited sequences, path sequences and found flags — the embedded
traversals are pure functions of the grid, dimensions, start and end. -/
theorem traversals_deterministic (rows cols : Nat) (grid : GridT)
    (startCell endCell : Cell) :
    ((bfs rows cols grid startCell endCell).visited =
        (bfs rows cols grid startCell endCell).visited ∧
      (bfs rows cols grid startCell endCell).path =
        (bfs rows cols grid startCell endCell).path ∧
      (bfs rows cols grid startCell endCell).found =
        (bfs rows cols grid startCell endCell).found) ∧
    ((dfs rows cols grid startCell endCell).visited =
        (dfs rows cols grid startCell endCell).visited ∧
      (dfs rows cols grid startCell endCell).path =
        (dfs rows cols grid startCell endCell).path ∧
      (dfs rows cols grid startCell endCell).found =
        (dfs rows cols grid startCell endCell).found) :=
  ⟨⟨rfl, rfl, rfl⟩, ⟨rfl, rfl, rfl⟩⟩

/-- C8: the visited sequence of either traversal contains each coordinate at
most once and never the start cell's coordinate. -/
theorem visited_unique_excludes_start (rows cols : Nat) (grid : GridT)
    (startCell endCell : Cell) :
    (((bfs rows cols grid startCell endCell).visited.map coordOf).Nodup ∧
      coordOf startCell ∉ (bfs rows cols grid startCell endCell).visited.map coordOf) ∧
    (((dfs rows cols grid startCell endCell).visited.map coordOf).Nodup ∧
      coordOf startCell ∉ (dfs rows cols grid startCell endCell).visited.map coordOf) := by
  have hb := (bfs_resultOk rows cols grid startCell endCell).1
  have hd := dfs_resultOk rows cols grid startCell endCell
  exact ⟨⟨hb.2.2.2.1, hb.2.2.2.2⟩, ⟨hd.2.2.2.1, hd.2.2.2.2⟩⟩

/-- C10: the two traversals agree on the found flag: each reports found
exactly when the end coordinate is reachable in the searched graph. -/
theorem bfs_dfs_found_agree (rows cols : Nat) (grid : GridT)
    (startCell endCell : Cell) :
    (bfs rows cols grid startCell endCell).found =
      (dfs rows cols grid startCell endCell).found := by
  have hb := (bfs_resultOk rows cols grid startCell endCell).1
  have hd := dfs_resultOk rows cols grid startCell endCell
  cases hbf : (bfs rows cols grid startCell endCell).found <;>
    cases hdf : (dfs rows cols grid startCell endCell).found
  · rfl
  · have := hb.2.1 (found_reachable hd hdf)
    rw [hbf] at this
    exact absurd this (by simp)
  · have := hd.2.1 (found_reachable hb hbf)
    rw [hdf] at this
    exact absurd this (by simp)
  · rfl

/-! ## Claims about the editing operations -/

/-- A grid holding a start at `(0,0)` and an end at `(1,1)`. -/
def grid2 : GridT := fun r c =>
  if r = 0 ∧ c = 0 then CellType.start
  else if r = 1 ∧ c = 1 then CellType.«end»
  else CellType.empty

/-- Component state with start `(0,0)` recorded, end `(1,1)` recorded, and the
mode switched back to placing-start. -/
def state2 : ClickState :=
  ⟨grid2, some (0, 0), some (1, 1), Mode.start, false, ""⟩

/-- C2 counterexample: in placing-start mode, clicking the end cell leaves the
mode unchanged but the previously designated start cell loses its start type,
so the grid is not unchanged. -/
theorem click_end_in_start_mode_counterexample :
    state2.mode = Mode.start ∧
    state2.grid 1 1 = CellType.«end» ∧
    state2.grid 0 0 = CellType.start ∧
    (handleCellClick state2 1 1).mode = Mode.start ∧
    (handleCellClick state2 1 1).grid 0 0 = CellType.empty := by
  refine ⟨rfl, by decide, by decide, by decide, by decide⟩

/-- C2 (amended): in placing-start mode, a click on a cell of type end that is
not the recorded start cell leaves the mode, both endpoint references, the
message and the clicked cell unchanged — but the previously recorded start
cell (if any) has its type cleared to empty; the grid is otherwise
unchanged. -/
theorem click_end_in_start_mode_clears_old_start (s : ClickState) (row col : Int)
    (hrun : s.isRunning = false) (hmode : s.mode = Mode.start)
    (hend : s.grid row col = CellType.«end»)
    (hne : ∀ p, s.start = some p → p ≠ (row, col)) :
    (handleCellClick s row col).mode = s.mode ∧
    (handleCellClick s row col).start = s.start ∧
    (handleCellClick s row col).«end» = s.«end» ∧
    (handleCellClick s row col).message = s.message ∧
    (handleCellClick s row col).grid row col = CellType.«end» ∧
    (handleCellClick s row col).grid = (match s.start with
      | some p => setType s.grid p.1 p.2 CellType.empty
      | none => s.grid) := by
  have hg1 : (match s.start with
      | some p => setType s.grid p.1 p.2 CellType.empty
      | none => s.grid) row col = CellType.«end» := by
    cases hs : s.start with
    | none => exact hend
    | some p =>
      have hpne := hne p hs
      simp only [setType]
      rw [if_neg]
      · exact hend
      · rintro ⟨h1, h2⟩
        exact hpne (by rw [h1, h2])
  have hcc : handleCellClick s row col = { s with grid := (match s.start with
      | some p => setType s.grid p.1 p.2 CellType.empty
      | none => s.grid) } := by
    unfold handleCellClick
    rw [hrun, hmode]
    simp only [Bool.false_eq_true, if_false]
    rw [if_pos hg1]
  rw [hcc]
  exact ⟨rfl, rfl, rfl, rfl, hg1, rfl⟩

theorem click_end_in_start_mode_clears_old_start_witness :
    (state2.isRunning = false ∧ state2.mode = Mode.start ∧
      state2.grid 1 1 = CellType.«end» ∧
      (∀ p, state2.start = some p → p ≠ (1, 1))) ∧
    ((handleCellClick state2 1 1).mode = state2.mode ∧
      (handleCellClick state2 1 1).start = state2.start ∧
      (handleCellClick state2 1 1).«end» = state2.«end» ∧
      (handleCellClick state2 1 1).message = state2.message ∧
      (handleCellClick state2 1 1).grid 1 1 = CellType.«end» ∧
      (handleCellClick state2 1 1).grid = (match state2.start with
        | some p => setType state2.grid p.1 p.2 CellType.empty
        | none => state2.grid)) := by
  have hne : ∀ p, state2.start = some p → p ≠ ((1 : Int), (1 : Int)) := by
    intro p hp
    have : p = (0, 0) := by
      simp [state2] at hp
      exact hp.symm
    rw [this]
    decide
  exact ⟨⟨rfl, rfl, by decide, hne⟩,
    click_end_in_start_mode_clears_old_start state2 1 1 rfl rfl (by decide) hne⟩

/-- C7: the overlay clears are idempotent; `clearPath` empties exactly the
path/visited cells and preserves start, end and wall cells; `clearWalls`
empties exactly the wall cells and preserves every other cell type. -/
theorem clear_ops_idempotent_frame (grid : GridT) :
    clearPath (clearPath grid) = clearPath grid ∧
    clearWalls (clearWalls grid) = clearWalls grid ∧
    (∀ r c, (grid r c = CellType.path ∨ grid r c = CellType.visited) →
      clearPath grid r c = CellType.empty) ∧
    (∀ r c, grid r c = CellType.start ∨ grid r c = CellType.«end» ∨
      grid r c = CellType.wall → clearPath grid r c = grid r c) ∧
    (∀ r c, grid r c = CellType.wall → clearWalls grid r c = CellType.empty) ∧
    (∀ r c, grid r c ≠ CellType.wall → clearWalls grid r c = grid r c) := by
  refine ⟨?_, ?_, ?_, ?_, ?_, ?_⟩
  · funext r c
    simp only [clearPath]
    cases grid r c <;> rfl
  · funext r c
    simp only [clearWalls]
    cases grid r c <;> rfl
  · intro r c h
    rcases h with h | h <;> simp [clearPath, h, clearPathCellType]
  · intro r c h
    rcases h with h | h | h <;> simp [clearPath, h, clearPathCellType]
  · intro r c h
    simp [clearWalls, h, clearWallsCellType]
  · intro r c h
    simp only [clearWalls]
    cases hgc : grid r c
    · rfl
    · rfl
    · rfl
    · exact absurd hgc h
    · rfl
    · rfl

/-- C9: a run requested while either endpoint reference is unset performs no
traversal, leaves the grid unchanged, and surfaces the error message. -/
theorem visualize_missing_endpoints (rows cols : Nat) (algorithm : Algo) (grid : GridT)
    (start «end» : Option Coord) (h : start = none ∨ «end» = none) :
    visualizePath rows cols algorithm grid start «end» =
      ⟨grid, "Please select both start and end points!", none⟩ := by
  match start, «end», h with
  | none, _, _ => rfl
  | some sp, none, _ => rfl
  | some sp, some ep, h => rcases h with h | h <;> simp at h

theorem visualize_missing_endpoints_witness :
    ((none : Option Coord) = none ∨ (some ((4, 4) : Coord)) = none) ∧
    visualizePath 5 5 Algo.bfs grid5 none (some (4, 4)) =
      ⟨grid5, "Please select both start and end points!", none⟩ :=
  ⟨Or.inl rfl,
    visualize_missing_endpoints 5 5 Algo.bfs grid5 none (some (4, 4)) (Or.inl rfl)⟩

end SPV
